import Mathlib

/-!
Shallow embedding of the `pracpred.prob` package (`prob.py` and
`probdist.py`): an exact-rational probability type with odds conversions,
and a discrete finite probability distribution built on top of it.
Python `Fraction` values are modelled as `ℚ`; the IEEE infinities that the
odds properties can return, and the exceptions the code can raise, are
modelled by the `XVal` type below.
-/

namespace Pracpred

/-- Kinds of Python exceptions raised on the embedded code paths:
`ZeroDivisionError`, `ValueError`, and the `OverflowError` raised by
`int(math.inf)` inside `Prob._ratio_from_float`. -/
inductive PyErr where
  | zeroDiv
  | valueError
  | overflow
deriving DecidableEq

/-- Result of a Python expression in the odds code: a finite `Fraction`
(an exact rational), `math.inf`, `-math.inf`, or a raised exception. -/
inductive XVal where
  | fin (q : ℚ)
  | posInf
  | negInf
  | err (e : PyErr)
deriving DecidableEq

/-- Embeds `Prob.__new__`: validates that the rational value lies in the
closed interval `[0, 1]`, raising `ValueError` otherwise.  (The
string/float parsing of `Prob._format` is not needed by the claims: all
inputs reaching the constructor on the claimed paths are already exact
rationals, and `Fraction(n, d)` is just the rational value `n / d`.) -/
def Prob.new (q : ℚ) : XVal :=
  if q < 0 then .err .valueError
  else if q > 1 then .err .valueError
  else .fin q

/-- Python `1 / x` applied to one of the odds values: `1 / Fraction(0)`
raises `ZeroDivisionError`, `1 / math.inf` is `0.0` and `1 / -math.inf`
is `-0.0` (both are the exact value `0`, and the callers feed them back
through `Prob._format`, which turns the float `0.0` into `Fraction(0, 1)`,
so we model them directly as the rational `0`). -/
def xInv : XVal → XVal
  | .fin q => if q = 0 then .err .zeroDiv else .fin q⁻¹
  | .posInf => .fin 0
  | .negInf => .fin 0
  | .err e => .err e

/-- Applies `f` when the previous step produced a finite rational, and
propagates infinities and exceptions unchanged (the Python control flow:
an exception raised inside a `_format_*` helper propagates past the
enclosing constructor call). -/
def XVal.bindFin (x : XVal) (f : ℚ → XVal) : XVal :=
  match x with
  | .fin q => f q
  | x => x

/-- Embeds `Prob.fractional_odds_against`:
`Fraction(1/self - 1) if self > 0 else math.inf`. -/
def fractional_odds_against (p : ℚ) : XVal :=
  if p > 0 then .fin (1 / p - 1) else .posInf

/-- Embeds `Prob.fractional_odds_on`: `1 / self.fractional_odds_against`. -/
def fractional_odds_on (p : ℚ) : XVal :=
  xInv (fractional_odds_against p)

/-- Embeds `Prob.decimal_odds_against`:
`Fraction(1/self) if self > 0 else math.inf`. -/
def decimal_odds_against (p : ℚ) : XVal :=
  if p > 0 then .fin (1 / p) else .posInf

/-- Embeds `Prob.decimal_odds_on`: `1 / self.decimal_odds_against`. -/
def decimal_odds_on (p : ℚ) : XVal :=
  xInv (decimal_odds_against p)

/-- Embeds `Prob.moneyline_odds_against`: `-math.inf` at `p = 1`,
`-100*p/(1-p)` for `p > 1/2`, `100*(1-p)/p` for `p > 0`, else `math.inf`. -/
def moneyline_odds_against (p : ℚ) : XVal :=
  if p = 1 then .negInf
  else if p > 1/2 then .fin (-100 * p / (1 - p))
  else if p > 0 then .fin (100 * (1 - p) / p)
  else .posInf

/-- Embeds `Prob.moneyline_odds_on`: `1 / self.moneyline_odds_against`. -/
def moneyline_odds_on (p : ℚ) : XVal :=
  xInv (moneyline_odds_against p)

/-- Embeds `Prob._format_fractional`: rejects negative fractional odds with
`ValueError`.  An infinite input raises `OverflowError` inside
`Prob._ratio_from_float` (`int(math.inf)`). -/
def format_fractional : XVal → XVal
  | .fin q => if q < 0 then .err .valueError else .fin q
  | .posInf => .err .overflow
  | .negInf => .err .overflow
  | .err e => .err e

/-- Embeds `Prob._format_decimal`: rejects non-positive decimal odds with
`ValueError`; infinite input overflows as in `format_fractional`. -/
def format_decimal : XVal → XVal
  | .fin q => if q ≤ 0 then .err .valueError else .fin q
  | .posInf => .err .overflow
  | .negInf => .err .overflow
  | .err e => .err e

/-- Embeds `Prob._format_moneyline`: a positive moneyline value `v` becomes
the fractional ratio `v/100`, a negative one becomes `-100/v`, and zero
raises `ValueError`; infinite input overflows as in `format_fractional`. -/
def format_moneyline : XVal → XVal
  | .fin q =>
      if q > 0 then .fin (q / 100)
      else if q < 0 then .fin (-100 / q)
      else .err .valueError
  | .posInf => .err .overflow
  | .negInf => .err .overflow
  | .err e => .err e

/-- Embeds `Prob.from_fractional_odds_against`: with validated odds value
`q = n/d` (in lowest terms, `d > 0`) it returns `Prob(d, n + d)`, whose
rational value is `d/(n+d) = 1/(q+1)`. -/
def from_fractional_odds_against (v : XVal) : XVal :=
  (format_fractional v).bindFin fun q => Prob.new (1 / (q + 1))

/-- Embeds `Prob.from_fractional_odds_on`: with validated odds value
`q = n/d` it returns `Prob(n, n + d)`, whose value is `n/(n+d) = q/(q+1)`. -/
def from_fractional_odds_on (v : XVal) : XVal :=
  (format_fractional v).bindFin fun q => Prob.new (q / (q + 1))

/-- Embeds `Prob.from_decimal_odds_against`: with validated odds value
`q = n/d` it returns `Prob(d, n)`, whose value is `d/n = 1/q`. -/
def from_decimal_odds_against (v : XVal) : XVal :=
  (format_decimal v).bindFin fun q => Prob.new (1 / q)

/-- Embeds `Prob.from_decimal_odds_on`: with validated odds value
`q = n/d` it returns `Prob(n, d)`, whose value is `q` itself. -/
def from_decimal_odds_on (v : XVal) : XVal :=
  (format_decimal v).bindFin fun q => Prob.new q

/-- Embeds `Prob.from_moneyline_odds_against`: the moneyline value is
first converted to a fractional ratio `r = n/d` by `_format_moneyline`,
then `Prob(d, n + d)` is returned, whose value is `1/(r+1)`. -/
def from_moneyline_odds_against (v : XVal) : XVal :=
  (format_moneyline v).bindFin fun r => Prob.new (1 / (r + 1))

/-- Embeds `Prob.from_moneyline_odds_on`: as above but returning
`Prob(n, n + d)`, whose value is `r/(r+1)`. -/
def from_moneyline_odds_on (v : XVal) : XVal :=
  (format_moneyline v).bindFin fun r => Prob.new (r / (r + 1))

/-- Modelled from the spec: the piecewise table for moneyline odds against
(`p=1 → -infinity; p>1/2 → -100p/(1-p); 0<p≤1/2 → 100(1-p)/p;
p=0 → +infinity`); outside `[0, 1]` the table says nothing and we default
to `+infinity`. -/
def moneyline_spec_table (p : ℚ) : XVal :=
  if p = 1 then .negInf
  else if p > 1/2 then .fin (-100 * p / (1 - p))
  else if 0 < p ∧ p ≤ 1/2 then .fin (100 * (1 - p) / p)
  else .posInf

/-- A discrete finite probability distribution, embedding `ProbDist`:
the `_space` attribute (a `Counter`, i.e. an insertion-ordered dict from
outcome to probability) is modelled as an association list.  Every
distribution the code builds has unique keys, because `Counter` is a dict;
iterating the dict's keys and looking each one up is therefore the same as
iterating the association list's entries. -/
structure ProbDist (α : Type) where
  space : List (α × ℚ)

/-- Embeds `Counter.__getitem__`: the value stored for a key, or 0 when the
key is absent (a `Counter` returns 0 for missing keys instead of raising). -/
def lookupD [DecidableEq α] : List (α × ℚ) → α → ℚ
  | [], _ => 0
  | p :: rest, x => if p.1 = x then p.2 else lookupD rest x

/-- Embeds `ProbDist.__getitem__`: `self._space[outcome]`. -/
def ProbDist.getP [DecidableEq α] (D : ProbDist α) (x : α) : ℚ :=
  lookupD D.space x

/-- Embeds the normalization loop of `ProbDist.__init__`: each raw weight
`w` is replaced by `Prob(w, total)`.  `Fraction(w, 0)` raises
`ZeroDivisionError` when the precomputed total is zero, and the `Prob`
constructor raises `ValueError` when `w/total` falls outside `[0, 1]`; the
first failing entry aborts the loop.  An empty space skips the loop
entirely, so no error can be raised for it. -/
def normalizeSpace (T : ℚ) : List (α × ℚ) → Except PyErr (List (α × ℚ))
  | [] => .ok []
  | p :: rest =>
      if T = 0 then .error .zeroDiv
      else if p.2 / T < 0 then .error .valueError
      else if p.2 / T > 1 then .error .valueError
      else
        match normalizeSpace T rest with
        | .ok l => .ok ((p.1, p.2 / T) :: l)
        | .error e => .error e

/-- Embeds `ProbDist.__init__` on an outcome→weight mapping: the total of
the raw weights is computed first, then every weight is normalized by it. -/
def mkProbDist (ws : List (α × ℚ)) : Except PyErr (ProbDist α) :=
  match normalizeSpace ((ws.map Prod.snd).sum) ws with
  | .ok l => .ok ⟨l⟩
  | .error e => .error e

/-- The distribution invariant the spec states for every constructed
`ProbDist`: probabilities sum to exactly 1 and each lies in `[0, 1]`. -/
def IsDistribution (D : ProbDist α) : Prop :=
  (D.space.map Prod.snd).sum = 1 ∧ ∀ p ∈ D.space, 0 ≤ p.2 ∧ p.2 ≤ 1

/-- Embeds the uniformity tail of the `__init__` loop: every probability
after the first is compared against the first, and the flag short-circuits
to `False` permanently at the first mismatch. -/
def allEqHead (p : ℚ) : List ℚ → Bool
  | [] => true
  | q :: rest => if q = p then allEqHead p rest else false

/-- Embeds the `_uniform` flag computed by `ProbDist.__init__`: `True` for
an empty space, otherwise whether every normalized probability equals the
first one. -/
def computeUniform : List ℚ → Bool
  | [] => true
  | p :: rest => allEqHead p rest

/-- Embeds `ProbDist.is_uniform`.  The flag is a pure function of the
normalized space, so the cached attribute is modelled as a derived value. -/
def ProbDist.is_uniform (D : ProbDist α) : Bool :=
  computeUniform (D.space.map Prod.snd)

/-- Stable insertion step for sorting by descending probability: the new
element is placed before the first element whose probability is not
strictly greater, which reproduces Python's stable
`sorted(key=get, reverse=True)`. -/
def insertDesc (p : α × ℚ) : List (α × ℚ) → List (α × ℚ)
  | [] => [p]
  | q :: rest => if q.2 ≤ p.2 then p :: q :: rest else q :: insertDesc p rest

/-- Embeds `sorted(self._space, key=self._space.get, reverse=True)` as a
stable insertion sort, keeping each entry paired with its probability. -/
def sortDescByProb (l : List (α × ℚ)) : List (α × ℚ) :=
  l.foldr insertDesc []

/-- Embeds `itertools.accumulate`: the running partial sums. -/
def accumulateFrom (acc : ℚ) : List ℚ → List ℚ
  | [] => []
  | x :: rest => (acc + x) :: accumulateFrom (acc + x) rest

/-- Running-sum list of `itertools.accumulate` starting from zero. -/
def pyAccumulate (l : List ℚ) : List ℚ :=
  accumulateFrom 0 l

/-- Embeds `_setup_sampling`'s `_sorted_outcomes`: the raw outcome list for
a uniform distribution, else the outcomes sorted by descending probability. -/
def ProbDist.sorted_outcomes (D : ProbDist α) : List α :=
  if D.is_uniform then D.space.map Prod.fst
  else (sortDescByProb D.space).map Prod.fst

/-- Embeds `_setup_sampling`'s `_sorted_probs`: populated (with the
descending probability list) only for a non-uniform distribution; `none`
models the `None` it keeps for a uniform one. -/
def ProbDist.sorted_probs (D : ProbDist α) : Option (List ℚ) :=
  if D.is_uniform then none
  else some ((sortDescByProb D.space).map Prod.snd)

/-- Embeds `_setup_sampling`'s `_sorted_sumprobs`: the cumulative sums of
the descending probability list, populated only for a non-uniform
distribution. -/
def ProbDist.sorted_sumprobs (D : ProbDist α) : Option (List ℚ) :=
  if D.is_uniform then none
  else some (pyAccumulate ((sortDescByProb D.space).map Prod.snd))

/-- Embeds the `weights` expression of `ProbDist.choices`:
`self._sorted_sumprobs if self.is_uniform else None` — the `cum_weights`
argument handed to `random.choices` (with `cum_weights=None`,
`random.choices` draws unweighted). -/
def ProbDist.choicesCumWeights (D : ProbDist α) : Option (List ℚ) :=
  if D.is_uniform then D.sorted_sumprobs else none

/-- Embeds the sum inside `ProbDist.prob` for a callable predicate: the
exact sum of the probabilities of the outcomes satisfying it. -/
def ProbDist.probVal (D : ProbDist α) (pred : α → Bool) : ℚ :=
  ((D.space.filter fun p => pred p.1).map Prod.snd).sum

/-- Embeds `ProbDist.prob` (callable-predicate case): the matching sum is
passed through the validating `Prob` constructor. -/
def ProbDist.prob (D : ProbDist α) (pred : α → Bool) : XVal :=
  Prob.new (D.probVal pred)

/-- Embeds `ProbDist.such_that` for a callable predicate: the matching
entries (with their current, already-normalized probabilities as the new
raw weights) are fed back into the `ProbDist` constructor. -/
def ProbDist.such_that (D : ProbDist α) (pred : α → Bool) :
    Except PyErr (ProbDist α) :=
  mkProbDist (D.space.filter fun p => pred p.1)

/-- Python value universe for distribution outcomes in the joint-key code:
strings, integers, and tuples (the three outcome shapes `_key` treats
specially). -/
inductive PyVal where
  | str (s : String)
  | int (n : ℤ)
  | tup (l : List PyVal)

mutual

def PyVal.decEq : (a b : PyVal) → Decidable (a = b)
  | .str a, .str b =>
      if h : a = b then isTrue (by rw [h])
      else isFalse (by intro hc; injection hc; contradiction)
  | .int a, .int b =>
      if h : a = b then isTrue (by rw [h])
      else isFalse (by intro hc; injection hc; contradiction)
  | .tup a, .tup b =>
      match PyVal.decEqList a b with
      | isTrue h => isTrue (by rw [h])
      | isFalse h => isFalse (by intro hc; injection hc; contradiction)
  | .str _, .int _ => isFalse (by intro h; exact PyVal.noConfusion h)
  | .str _, .tup _ => isFalse (by intro h; exact PyVal.noConfusion h)
  | .int _, .str _ => isFalse (by intro h; exact PyVal.noConfusion h)
  | .int _, .tup _ => isFalse (by intro h; exact PyVal.noConfusion h)
  | .tup _, .str _ => isFalse (by intro h; exact PyVal.noConfusion h)
  | .tup _, .int _ => isFalse (by intro h; exact PyVal.noConfusion h)

def PyVal.decEqList : (a b : List PyVal) → Decidable (a = b)
  | [], [] => isTrue rfl
  | x :: xs, y :: ys =>
      match PyVal.decEq x y, PyVal.decEqList xs ys with
      | isTrue h1, isTrue h2 => isTrue (by rw [h1, h2])
      | isFalse h1, _ => isFalse (by intro hc; injection hc; contradiction)
      | _, isFalse h2 => isFalse (by intro hc; injection hc; contradiction)
  | [], _ :: _ => isFalse (by intro h; exact List.noConfusion h)
  | _ :: _, [] => isFalse (by intro h; exact List.noConfusion h)

end

instance : DecidableEq PyVal := PyVal.decEq

/-- The apostrophe character used by Python `repr` around strings. -/
def pyQuote : String :=
  String.mk [Char.ofNat 39]

mutual

/-- Python `repr` of an outcome value, as used when stringifying tuples:
strings are quoted (embedded quotes are not modelled; no claim exercises
them), integers print in decimal, tuples print parenthesized with a
trailing comma for the one-element case. -/
def pyRepr : PyVal → String
  | .str s => pyQuote ++ s ++ pyQuote
  | .int n => toString n
  | .tup [] => "()"
  | .tup [x] => "(" ++ pyRepr x ++ ",)"
  | .tup (x :: y :: rest) => "(" ++ pyRepr x ++ pyReprRest (y :: rest) ++ ")"

def pyReprRest : List PyVal → String
  | [] => ""
  | x :: rest => ", " ++ pyRepr x ++ pyReprRest rest

end

/-- Python `str` of an outcome value: the string itself for a string,
otherwise the same as `repr`. -/
def pyStr : PyVal → String
  | .str s => s
  | v => pyRepr v

/-- Python `e1 + e2` on outcome values: concatenation for two strings or
two tuples, addition for two integers; any other combination raises
`TypeError`, modelled as `none`. -/
def pyAdd : PyVal → PyVal → Option PyVal
  | .str a, .str b => some (.str (a ++ b))
  | .int a, .int b => some (.int (a + b))
  | .tup a, .tup b => some (.tup (a ++ b))
  | _, _ => none

/-- Whether the value is a tuple (`isinstance(x, tuple)`). -/
def PyVal.isTup : PyVal → Bool
  | .tup _ => true
  | _ => false

/-- Embeds `ProbDist._key` (static key-combination policy).  `key_type` is
only ever compared against `tuple`, so it is modelled by the boolean
`ktTuple`; the `try`/`except` wrapper only matters for the `e1 + e2`
branch, the single operation that can raise, and its failure falls back to
the pair `(e1, e2)`. -/
def keyCombine (e1 e2 : PyVal) (ktTuple : Bool) (sep : String) : PyVal :=
  if sep ≠ "" then .str (pyStr e1 ++ sep ++ pyStr e2)
  else if ktTuple = false then
    match pyAdd e1 e2 with
    | some v => v
    | none => .tup [e1, e2]
  else if e1.isTup || e2.isTup then
    match e1, e2 with
    | .tup a, .tup b => .tup (a ++ b)
    | .tup a, b => .tup (a ++ [b])
    | a, .tup b => .tup (a :: b)
    | a, b => .tup [a, b]
  else .tup [e1, e2]

/-- Modelled from the spec's words for the key policy of C5: non-empty
separator gives `str(e1) + separator + str(e2)`; else if `key_type` is not
`tuple`, `e1 + e2`, any failure falling back to the pair; else tuple
concatenation with bare operands promoted to one-element tuples, or the
pair when neither operand is a tuple. -/
def specKeyPolicy (e1 e2 : PyVal) (ktTuple : Bool) (sep : String) : PyVal :=
  if sep ≠ "" then .str (pyStr e1 ++ sep ++ pyStr e2)
  else if ktTuple = false then (pyAdd e1 e2).getD (.tup [e1, e2])
  else
    match e1, e2 with
    | .tup a, .tup b => .tup (a ++ b)
    | .tup a, b => .tup (a ++ [b])
    | a, .tup b => .tup (a :: b)
    | a, b => .tup [a, b]

/-- Embeds `result[key] += value` on a `Counter`: an existing key's count
is increased in place, a fresh key is appended in insertion order. -/
def counterAdd [DecidableEq β] : List (β × ℚ) → β → ℚ → List (β × ℚ)
  | [], k, v => [(k, v)]
  | p :: rest, k, v =>
      if p.1 = k then (p.1, p.2 + v) :: rest else p :: counterAdd rest k v

/-- Accumulates a list of (key, value) contributions into a `Counter`. -/
def buildCounter [DecidableEq β] (l : List (β × ℚ)) : List (β × ℚ) :=
  l.foldl (fun acc p => counterAdd acc p.1 p.2) []

/-- The (key, probability-product) contributions of
`for (e1, e2) in product(self, other): ... self[e1] * other[e2]`, in
iteration order.  Iterating the product of the dicts' keys and looking
each key up equals iterating the entry lists directly, since dict keys are
unique. -/
def jointPairs (D1 D2 : ProbDist PyVal) (ktTuple : Bool) (sep : String) :
    List (PyVal × ℚ) :=
  D1.space.flatMap fun p1 =>
    D2.space.map fun p2 => (keyCombine p1.1 p2.1 ktTuple sep, p1.2 * p2.2)

/-- Embeds `ProbDist.joint`: the accumulated product contributions are fed
into the `ProbDist` constructor. -/
def ProbDist.joint (D1 D2 : ProbDist PyVal) (ktTuple : Bool) (sep : String) :
    Except PyErr (ProbDist PyVal) :=
  mkProbDist (buildCounter (jointPairs D1 D2 ktTuple sep))

/-- The loop of `ProbDist.repeated`: `n` further joins of the accumulated
result with `self`. -/
def ProbDist.repeatedAux (D : ProbDist PyVal) (ktTuple : Bool) (sep : String) :
    ℕ → Except PyErr (ProbDist PyVal) → Except PyErr (ProbDist PyVal)
  | 0, acc => acc
  | n + 1, acc =>
      ProbDist.repeatedAux D ktTuple sep n
        (match acc with
         | .ok R => R.joint D ktTuple sep
         | .error e => .error e)

/-- Embeds `ProbDist.repeated`: `result = ProbDist(self)` followed by
`repeat - 1` joins with `self` (Python's `range(repeat - 1)`). -/
def ProbDist.repeated (D : ProbDist PyVal) (n : ℕ) (ktTuple : Bool)
    (sep : String) : Except PyErr (ProbDist PyVal) :=
  ProbDist.repeatedAux D ktTuple sep (n - 1) (mkProbDist D.space)

/-- The distribution `{'H': 1/2, 'T': 1/2}` from the spec's joint example. -/
def coinHT : ProbDist PyVal :=
  ⟨[(.str "H", 1/2), (.str "T", 1/2)]⟩

/-- The normalized space of `ProbDist({'H': 2, 'T': 1})`, the spec's
non-uniform example distribution. -/
def coinBiased : ProbDist String :=
  ⟨[("H", 2/3), ("T", 1/3)]⟩

/-- A two-outcome distribution over `ℕ` used for conditioning witnesses. -/
def twoThirdsOneThird : ProbDist ℕ :=
  ⟨[(0, 2/3), (1, 1/3)]⟩

/-- Predicate selecting the outcome 0. -/
def pickZero : ℕ → Bool :=
  fun n => if n = 0 then true else false

/-! ## Theorems -/

theorem XVal.bindFin_fin (q : ℚ) (f : ℚ → XVal) : XVal.bindFin (.fin q) f = f q := rfl

/-- Helper for the round-trip proofs: `Prob.new` accepts any value in `[0,1]`. -/
theorem Prob.new_of_mem (q : ℚ) (h0 : 0 ≤ q) (h1 : q ≤ 1) : Prob.new q = .fin q := by
  unfold Prob.new
  rw [if_neg (not_lt.mpr h0), if_neg (not_lt.mpr h1)]

/-- Round trip of `fractional_odds_against` with `from_fractional_odds_against`
for probabilities strictly between 0 and 1. -/
theorem rt_fractional_against (p : ℚ) (h0 : 0 < p) (h1 : p < 1) :
    from_fractional_odds_against (fractional_odds_against p) = XVal.fin p := by
  have hq0 : (0:ℚ) ≤ 1 / p - 1 := by
    rw [sub_nonneg, le_div_iff h0]; linarith
  have hstep : fractional_odds_against p = .fin (1 / p - 1) := by
    unfold fractional_odds_against; rw [if_pos h0]
  have hf : format_fractional (.fin (1 / p - 1)) = .fin (1 / p - 1) := by
    simp only [format_fractional]
    rw [if_neg (not_lt.mpr hq0)]
  unfold from_fractional_odds_against
  rw [hstep, hf, XVal.bindFin_fin]
  have hsum : 1 / p - 1 + 1 = 1 / p := by ring
  rw [hsum, one_div_one_div]
  exact Prob.new_of_mem p h0.le h1.le

/-- Round trip of `fractional_odds_on` with `from_fractional_odds_on`
for probabilities strictly between 0 and 1. -/
theorem rt_fractional_on (p : ℚ) (h0 : 0 < p) (h1 : p < 1) :
    from_fractional_odds_on (fractional_odds_on p) = XVal.fin p := by
  have h1p : (0:ℚ) < 1 - p := by linarith
  have h1p' : (1:ℚ) - p ≠ 0 := ne_of_gt h1p
  have hqpos : (0:ℚ) < 1 / p - 1 := by
    rw [sub_pos, lt_div_iff h0]; linarith
  have hstep : fractional_odds_against p = .fin (1 / p - 1) := by
    unfold fractional_odds_against; rw [if_pos h0]
  have hform : 1 / p - 1 = (1 - p) / p := by field_simp
  have hinv : (1 / p - 1)⁻¹ = p / (1 - p) := by rw [hform, inv_div]
  have hon : fractional_odds_on p = .fin (p / (1 - p)) := by
    unfold fractional_odds_on
    rw [hstep]
    simp only [xInv]
    rw [if_neg (ne_of_gt hqpos), hinv]
  have hq0 : (0:ℚ) ≤ p / (1 - p) := div_nonneg h0.le h1p.le
  have hf : format_fractional (.fin (p / (1 - p))) = .fin (p / (1 - p)) := by
    simp only [format_fractional]
    rw [if_neg (not_lt.mpr hq0)]
  unfold from_fractional_odds_on
  rw [hon, hf, XVal.bindFin_fin]
  have hval : p / (1 - p) / (p / (1 - p) + 1) = p := by field_simp
  rw [hval]
  exact Prob.new_of_mem p h0.le h1.le

/-- Round trip of `decimal_odds_against` with `from_decimal_odds_against`
for probabilities strictly between 0 and 1. -/
theorem rt_decimal_against (p : ℚ) (h0 : 0 < p) (h1 : p < 1) :
    from_decimal_odds_against (decimal_odds_against p) = XVal.fin p := by
  have hq : (0:ℚ) < 1 / p := by positivity
  have hstep : decimal_odds_against p = .fin (1 / p) := by
    unfold decimal_odds_against; rw [if_pos h0]
  have hf : format_decimal (.fin (1 / p)) = .fin (1 / p) := by
    simp only [format_decimal]
    rw [if_neg (not_le.mpr hq)]
  unfold from_decimal_odds_against
  rw [hstep, hf, XVal.bindFin_fin, one_div_one_div]
  exact Prob.new_of_mem p h0.le h1.le

/-- Round trip of `decimal_odds_on` with `from_decimal_odds_on`
for probabilities strictly between 0 and 1. -/
theorem rt_decimal_on (p : ℚ) (h0 : 0 < p) (h1 : p < 1) :
    from_decimal_odds_on (decimal_odds_on p) = XVal.fin p := by
  have hq : (0:ℚ) < 1 / p := by positivity
  have hstep : decimal_odds_against p = .fin (1 / p) := by
    unfold decimal_odds_against; rw [if_pos h0]
  have hon : decimal_odds_on p = .fin p := by
    unfold decimal_odds_on
    rw [hstep]
    simp only [xInv]
    rw [if_neg (ne_of_gt hq), one_div, inv_inv]
  have hf : format_decimal (.fin p) = .fin p := by
    simp only [format_decimal]
    rw [if_neg (not_le.mpr h0)]
  unfold from_decimal_odds_on
  rw [hon, hf, XVal.bindFin_fin]
  exact Prob.new_of_mem p h0.le h1.le

/-- Round trip of `moneyline_odds_against` with `from_moneyline_odds_against`
for probabilities strictly between 0 and 1 (both piecewise branches). -/
theorem rt_moneyline_against (p : ℚ) (h0 : 0 < p) (h1 : p < 1) :
    from_moneyline_odds_against (moneyline_odds_against p) = XVal.fin p := by
  have h1p : (0:ℚ) < 1 - p := by linarith
  have hne1 : p ≠ 1 := ne_of_lt h1
  have hrplus : (1 - p) / p + 1 = 1 / p := by field_simp
  by_cases hhalf : p > 1/2
  · -- favourite branch: the moneyline value is negative
    have hstep : moneyline_odds_against p = .fin (-100 * p / (1 - p)) := by
      unfold moneyline_odds_against
      rw [if_neg hne1, if_pos hhalf]
    have hneg : -100 * p / (1 - p) < 0 :=
      div_neg_of_neg_of_pos (by linarith) h1p
    have hr : (-100:ℚ) / (-100 * p / (1 - p)) = (1 - p) / p := by
      rw [div_div_eq_mul_div]
      exact mul_div_mul_left (1 - p) p (by norm_num)
    have hf : format_moneyline (.fin (-100 * p / (1 - p))) = .fin ((1 - p) / p) := by
      simp only [format_moneyline]
      rw [if_neg (asymm hneg), if_pos hneg, hr]
    unfold from_moneyline_odds_against
    rw [hstep, hf, XVal.bindFin_fin, hrplus, one_div_one_div]
    exact Prob.new_of_mem p h0.le h1.le
  · -- underdog branch: the moneyline value is positive
    have hstep : moneyline_odds_against p = .fin (100 * (1 - p) / p) := by
      unfold moneyline_odds_against
      rw [if_neg hne1, if_neg hhalf, if_pos h0]
    have hpos : (0:ℚ) < 100 * (1 - p) / p := by positivity
    have hr : 100 * (1 - p) / p / 100 = (1 - p) / p := by
      rw [div_div, mul_comm p 100]
      exact mul_div_mul_left (1 - p) p (by norm_num)
    have hf : format_moneyline (.fin (100 * (1 - p) / p)) = .fin ((1 - p) / p) := by
      simp only [format_moneyline]
      rw [if_pos hpos, hr]
    unfold from_moneyline_odds_against
    rw [hstep, hf, XVal.bindFin_fin, hrplus, one_div_one_div]
    exact Prob.new_of_mem p h0.le h1.le

/-- C3 (amended): for every probability strictly between 0 and 1 — that is,
`Prob(n, d)` with `0 < n < d` — the five odds forms fractional against/on,
decimal against/on and moneyline against, each composed with its matching
inverse constructor, reproduce the probability exactly.  (The sixth form,
moneyline odds on, never round trips; see the counterexample.) -/
theorem claim_C3_odds_roundtrips (p : ℚ) (h0 : 0 < p) (h1 : p < 1) :
    from_fractional_odds_against (fractional_odds_against p) = XVal.fin p ∧
    from_fractional_odds_on (fractional_odds_on p) = XVal.fin p ∧
    from_decimal_odds_against (decimal_odds_against p) = XVal.fin p ∧
    from_decimal_odds_on (decimal_odds_on p) = XVal.fin p ∧
    from_moneyline_odds_against (moneyline_odds_against p) = XVal.fin p :=
  ⟨rt_fractional_against p h0 h1, rt_fractional_on p h0 h1,
   rt_decimal_against p h0 h1, rt_decimal_on p h0 h1,
   rt_moneyline_against p h0 h1⟩

/-- Witness for C3: the five round trips hold at the concrete
probability 1/3. -/
theorem claim_C3_odds_roundtrips_witness :
    from_fractional_odds_against (fractional_odds_against (1/3 : ℚ)) = XVal.fin (1/3) ∧
    from_fractional_odds_on (fractional_odds_on (1/3 : ℚ)) = XVal.fin (1/3) ∧
    from_decimal_odds_against (decimal_odds_against (1/3 : ℚ)) = XVal.fin (1/3) ∧
    from_decimal_odds_on (decimal_odds_on (1/3 : ℚ)) = XVal.fin (1/3) ∧
    from_moneyline_odds_against (moneyline_odds_against (1/3 : ℚ)) = XVal.fin (1/3) :=
  claim_C3_odds_roundtrips (1/3) (by norm_num) (by norm_num)

/-- Counterexample for C3 as stated: the pair `(n, d) = (1, 2)` is valid
(`0 ≤ 1 ≤ 2`, probability 1/2), yet composing `moneyline_odds_on` with
`from_moneyline_odds_on` yields 1/10001, not 1/2. -/
theorem claim_C3_cex :
    Prob.new (1/2 : ℚ) = XVal.fin (1/2) ∧
    from_moneyline_odds_on (moneyline_odds_on (1/2 : ℚ)) = XVal.fin (1/10001) ∧
    XVal.fin (1/10001 : ℚ) ≠ XVal.fin (1/2 : ℚ) := by
  refine ⟨?_, ?_, ?_⟩ <;>
    norm_num [Prob.new, from_moneyline_odds_on, moneyline_odds_on,
      moneyline_odds_against, xInv, format_moneyline, XVal.bindFin]

/-- C6: on the whole domain `[0, 1]` of probabilities,
`moneyline_odds_against` agrees with the spec's piecewise table, and the
boundary case `Prob(1, 2)` takes the `0 < p ≤ 1/2` branch, giving 100. -/
theorem claim_C6_moneyline_piecewise :
    (∀ p : ℚ, 0 ≤ p → p ≤ 1 → moneyline_odds_against p = moneyline_spec_table p) ∧
    moneyline_odds_against (1/2 : ℚ) = XVal.fin 100 := by
  constructor
  · intro p hp0 hp1
    unfold moneyline_odds_against moneyline_spec_table
    by_cases hone : p = 1
    · rw [if_pos hone, if_pos hone]
    · rw [if_neg hone, if_neg hone]
      by_cases hhalf : p > 1/2
      · rw [if_pos hhalf, if_pos hhalf]
      · rw [if_neg hhalf, if_neg hhalf]
        by_cases hzero : p > 0
        · rw [if_pos hzero, if_pos (⟨hzero, by linarith⟩ : 0 < p ∧ p ≤ 1/2)]
        · rw [if_neg hzero, if_neg (fun hc => hzero hc.1 : ¬(0 < p ∧ p ≤ 1/2))]
  · norm_num [moneyline_odds_against]

/-- Witness for C6: the piecewise agreement at the concrete probability 1/3
(together with the closed boundary fact restated through the theorem). -/
theorem claim_C6_moneyline_witness :
    moneyline_odds_against (1/3 : ℚ) = moneyline_spec_table (1/3 : ℚ) :=
  claim_C6_moneyline_piecewise.1 (1/3) (by norm_num) (by norm_num)

/-- C10: the probability 1 itself is a valid construction, its
`fractional_odds_against` is the exact rational 0, and reading
`fractional_odds_on` therefore raises `ZeroDivisionError` (`1/0`). -/
theorem claim_C10_odds_on_of_one :
    Prob.new (1 : ℚ) = XVal.fin 1 ∧
    fractional_odds_against (1 : ℚ) = XVal.fin 0 ∧
    fractional_odds_on (1 : ℚ) = XVal.err PyErr.zeroDiv := by
  refine ⟨?_, ?_, ?_⟩ <;>
    norm_num [Prob.new, fractional_odds_on, fractional_odds_against, xInv]

/-- Summing the second components after normalization divides the sum. -/
theorem sum_map_div (l : List (α × ℚ)) (T : ℚ) :
    ((l.map fun p => (p.1, p.2 / T)).map Prod.snd).sum = (l.map Prod.snd).sum / T := by
  induction l with
  | nil => simp
  | cons p rest ih => simp only [List.map_cons, List.sum_cons, ih, add_div]

/-- Normalizing by a total of 1 keeps the space unchanged. -/
theorem map_div_one (l : List (α × ℚ)) :
    (l.map fun p => (p.1, p.2 / 1)) = l := by
  induction l with
  | nil => rfl
  | cons p rest ih => simp [ih]

/-- The normalization loop succeeds, and produces the divided weights, when
the total is nonzero and every normalized weight is a valid probability. -/
theorem normalizeSpace_ok (T : ℚ) (hT : T ≠ 0) :
    ∀ l : List (α × ℚ), (∀ p ∈ l, 0 ≤ p.2 / T ∧ p.2 / T ≤ 1) →
      normalizeSpace T l = .ok (l.map fun p => (p.1, p.2 / T))
  | [], _ => rfl
  | p :: rest, h => by
      have hp := h p (by simp)
      have hrest := normalizeSpace_ok T hT rest fun q hq => h q (by simp [hq])
      simp only [normalizeSpace]
      rw [if_neg hT, if_neg (not_lt.mpr hp.1), if_neg (not_lt.mpr hp.2), hrest]
      rfl

/-- Inversion: whenever the normalization loop returns a space, that space
is exactly the divided-weight list. -/
theorem normalizeSpace_ok_inv :
    ∀ (T : ℚ) (l out : List (α × ℚ)), normalizeSpace T l = .ok out →
      out = l.map fun p => (p.1, p.2 / T)
  | T, [], out, h => by
      have h2 : Except.ok ([] : List (α × ℚ)) = .ok out := h
      injection h2 with h3
      rw [← h3]
      rfl
  | T, p :: rest, out, h => by
      simp only [normalizeSpace] at h
      split_ifs at h
      cases hr : normalizeSpace T rest with
      | ok l2 =>
          rw [hr] at h
          injection h with h
          rw [normalizeSpace_ok_inv T rest l2 hr] at h
          simp [h.symm]
      | error e =>
          rw [hr] at h
          exact Except.noConfusion h

/-- A nonempty space can only normalize successfully when the total is
nonzero (the first loop iteration would otherwise raise). -/
theorem normalizeSpace_cons_total_ne_zero (T : ℚ) (p : α × ℚ)
    (rest out : List (α × ℚ)) (h : normalizeSpace T (p :: rest) = .ok out) :
    T ≠ 0 := by
  intro h0
  simp only [normalizeSpace, if_pos h0] at h
  exact Except.noConfusion h

/-- The constructor succeeds, with the divided weights, when the total is
nonzero and every normalized weight is a valid probability. -/
theorem mkProbDist_ok_of (ws : List (α × ℚ))
    (hT : (ws.map Prod.snd).sum ≠ 0)
    (h : ∀ p ∈ ws, 0 ≤ p.2 / (ws.map Prod.snd).sum ∧
        p.2 / (ws.map Prod.snd).sum ≤ 1) :
    mkProbDist ws = .ok ⟨ws.map fun p => (p.1, p.2 / (ws.map Prod.snd).sum)⟩ := by
  unfold mkProbDist
  rw [normalizeSpace_ok _ hT ws h]

/-- Feeding a distribution's own (already normalized) space back into the
constructor, as `ProbDist(self)` does, reproduces the distribution. -/
theorem mkProbDist_self (D : ProbDist α) (hD : IsDistribution D) :
    mkProbDist D.space = .ok D := by
  obtain ⟨hsum, hbound⟩ := hD
  have h : ∀ p ∈ D.space, 0 ≤ p.2 / (D.space.map Prod.snd).sum ∧
      p.2 / (D.space.map Prod.snd).sum ≤ 1 := by
    intro p hp
    rw [hsum]
    simpa using hbound p hp
  rw [mkProbDist_ok_of D.space (by rw [hsum]; norm_num) h, hsum, map_div_one]

/-- A missing key looks up to 0 in a `Counter`. -/
theorem lookupD_not_mem [DecidableEq α] :
    ∀ (l : List (α × ℚ)) (x : α), x ∉ l.map Prod.fst → lookupD l x = 0
  | [], _, _ => rfl
  | p :: rest, x, h => by
      simp only [List.map_cons, List.mem_cons, not_or] at h
      simp only [lookupD]
      rw [if_neg fun hc => h.1 hc.symm]
      exact lookupD_not_mem rest x h.2

/-- C9: for every distribution and every outcome absent from its mapping,
indexing returns the exact probability 0 instead of raising. -/
theorem claim_C9_missing_outcome_zero [DecidableEq α] (D : ProbDist α)
    (x : α) (h : x ∉ D.space.map Prod.fst) : D.getP x = 0 :=
  lookupD_not_mem D.space x h

/-- Witness for C9: `'Z'` is not an outcome of the biased coin, and its
probability reads back as 0. -/
theorem claim_C9_missing_outcome_zero_witness : coinBiased.getP "Z" = 0 :=
  claim_C9_missing_outcome_zero coinBiased "Z" (by simp [coinBiased])

/-- C8 (amended): for every nonempty input whose raw weights total zero,
construction fails with `ZeroDivisionError`. -/
theorem claim_C8_zero_total_raises (ws : List (α × ℚ)) (hne : ws ≠ [])
    (h0 : (ws.map Prod.snd).sum = 0) :
    mkProbDist ws = .error PyErr.zeroDiv := by
  cases ws with
  | nil => exact absurd rfl hne
  | cons p rest =>
      unfold mkProbDist
      rw [h0]
      simp [normalizeSpace]

/-- Witness for C8: the one-outcome mapping `{'a': 0}` has zero total
weight and raises `ZeroDivisionError`. -/
theorem claim_C8_zero_total_raises_witness :
    mkProbDist [(("a" : String), (0 : ℚ))] = .error PyErr.zeroDiv :=
  claim_C8_zero_total_raises _ (by simp) (by simp)

/-- Counterexample for C8 as stated: the empty outcome set also has zero
total weight, yet construction succeeds (the normalization loop never
runs), producing the empty distribution instead of failing. -/
theorem claim_C8_cex :
    (([] : List (ℕ × ℚ)).map Prod.snd).sum = 0 ∧
    mkProbDist ([] : List (ℕ × ℚ)) = .ok ⟨[]⟩ :=
  ⟨rfl, rfl⟩

/-- C2 (amended): every distribution constructed from a nonempty
outcome→weight input has probabilities summing to exactly 1. -/
theorem claim_C2_probabilities_sum_to_one (ws : List (α × ℚ))
    (D : ProbDist α) (hok : mkProbDist ws = .ok D) (hne : ws ≠ []) :
    (D.space.map Prod.snd).sum = 1 := by
  unfold mkProbDist at hok
  cases hr : normalizeSpace ((ws.map Prod.snd).sum) ws with
  | ok l =>
      rw [hr] at hok
      injection hok with hok
      have hspace : D.space = ws.map fun p => (p.1, p.2 / (ws.map Prod.snd).sum) := by
        rw [← hok]
        exact normalizeSpace_ok_inv _ ws l hr
      have hT : (ws.map Prod.snd).sum ≠ 0 := by
        cases ws with
        | nil => exact absurd rfl hne
        | cons p rest => exact normalizeSpace_cons_total_ne_zero _ p rest l hr
      rw [hspace, sum_map_div]
      exact div_self hT
  | error e =>
      rw [hr] at hok
      exact Except.noConfusion hok

/-- Witness for C2: the multiset `['H', 'H', 'T']`, i.e. the weights
`{'H': 2, 'T': 1}`, normalizes to `{'H': 2/3, 'T': 1/3}`, which sums to 1. -/
theorem claim_C2_probabilities_sum_to_one_witness :
    (coinBiased.space.map Prod.snd).sum = 1 :=
  claim_C2_probabilities_sum_to_one [("H", 2), ("T", 1)] coinBiased
    (by norm_num [mkProbDist, normalizeSpace, coinBiased]) (by simp)

/-- Counterexample for C2 as stated: the empty multiset is a valid
construction input, succeeds, and yields a distribution whose
probabilities sum to 0, not 1. -/
theorem claim_C2_cex :
    mkProbDist ([] : List (String × ℚ)) = .ok ⟨[]⟩ ∧
    (((⟨[]⟩ : ProbDist String).space.map Prod.snd).sum = 0) ∧
    (0 : ℚ) ≠ 1 :=
  ⟨rfl, rfl, by norm_num⟩

/-- C1: the `cum_weights` argument that `choices` passes to
`random.choices` is `None` for every distribution — including non-uniform
ones, for which the spec requires the cumulative-probability weights.  In
particular `ProbDist({'H': 2, 'T': 1})` is non-uniform, its (unused)
`_sorted_sumprobs` cache is the cumulative list `[2/3, 1]`, and yet the
weights handed to `random.choices` are `None`, so the draw is unweighted. -/
theorem claim_C1_choices_ignores_weights :
    (∀ (α : Type) (D : ProbDist α), D.choicesCumWeights = none) ∧
    mkProbDist [(("H" : String), (2 : ℚ)), ("T", 1)] = .ok coinBiased ∧
    coinBiased.is_uniform = false ∧
    coinBiased.sorted_sumprobs = some [2/3, 1] := by
  refine ⟨?_, ?_, ?_, ?_⟩
  · intro α D
    unfold ProbDist.choicesCumWeights ProbDist.sorted_sumprobs
    by_cases hu : D.is_uniform = true
    · rw [if_pos hu, if_pos hu]
    · rw [if_neg hu]
  · norm_num [mkProbDist, normalizeSpace, coinBiased]
  · norm_num [ProbDist.is_uniform, coinBiased, computeUniform, allEqHead]
  · norm_num [ProbDist.sorted_sumprobs, ProbDist.is_uniform, coinBiased,
      computeUniform, allEqHead, sortDescByProb, insertDesc, pyAccumulate,
      accumulateFrom]

/-- A list of entries with nonnegative weights has a nonnegative sum. -/
theorem sum_snd_nonneg :
    ∀ l : List (α × ℚ), (∀ p ∈ l, 0 ≤ p.2) → 0 ≤ (l.map Prod.snd).sum
  | [], _ => by simp
  | p :: rest, h => by
      have hr := sum_snd_nonneg rest fun q hq => h q (by simp [hq])
      have hp := h p (by simp)
      simp only [List.map_cons, List.sum_cons]
      linarith

/-- Filtering entries with nonnegative weights can only shrink the sum. -/
theorem sum_snd_filter_le (q : (α × ℚ) → Bool) :
    ∀ l : List (α × ℚ), (∀ p ∈ l, 0 ≤ p.2) →
      ((l.filter q).map Prod.snd).sum ≤ (l.map Prod.snd).sum
  | [], _ => by simp
  | p :: rest, h => by
      have hr := sum_snd_filter_le q rest fun x hx => h x (by simp [hx])
      have hp := h p (by simp)
      by_cases hq : q p
      · simp only [List.filter_cons, hq, if_pos, List.map_cons, List.sum_cons]
        simpa using hr
      · simp only [List.filter_cons, hq, List.map_cons, List.sum_cons]
        simp only [Bool.false_eq_true, if_false]
        linarith

/-- Each entry of a nonnegative-weight list is at most the total sum. -/
theorem mem_le_sum_snd :
    ∀ (l : List (α × ℚ)) (p : α × ℚ), (∀ x ∈ l, 0 ≤ x.2) → p ∈ l →
      p.2 ≤ (l.map Prod.snd).sum
  | [], p, _, hm => absurd hm (by simp)
  | x :: rest, p, h, hm => by
      simp only [List.map_cons, List.sum_cons]
      rcases List.mem_cons.mp hm with he | hr
      · have := sum_snd_nonneg rest fun q hq => h q (by simp [hq])
        rw [he]
        linarith
      · have := mem_le_sum_snd rest p (fun q hq => h q (by simp [hq])) hr
        have hx := h x (by simp)
        linarith

/-- Looking a key up in a normalized space divides the looked-up weight. -/
theorem lookupD_map_div [DecidableEq α] :
    ∀ (l : List (α × ℚ)) (T : ℚ) (x : α),
      lookupD (l.map fun p => (p.1, p.2 / T)) x = lookupD l x / T
  | [], T, x => by simp [lookupD]
  | p :: rest, T, x => by
      simp only [List.map_cons, lookupD]
      by_cases h : p.1 = x
      · rw [if_pos h, if_pos h]
      · rw [if_neg h, if_neg h]
        exact lookupD_map_div rest T x

/-- Filtering by a predicate the key satisfies does not change its lookup. -/
theorem lookupD_filter [DecidableEq α] :
    ∀ (l : List (α × ℚ)) (A : α → Bool) (x : α), A x = true →
      lookupD (l.filter fun p => A p.1) x = lookupD l x
  | [], _, _, _ => rfl
  | p :: rest, A, x, hx => by
      by_cases hA : A p.1
      · simp only [List.filter_cons, hA, if_pos, lookupD]
        by_cases hk : p.1 = x
        · rw [if_pos hk, if_pos hk]
        · rw [if_neg hk, if_neg hk]
          exact lookupD_filter rest A x hx
      · have hk : p.1 ≠ x := fun hc => hA (by rw [hc]; exact hx)
        simp only [List.filter_cons, hA, Bool.false_eq_true, if_false, lookupD]
        rw [if_neg hk]
        exact lookupD_filter rest A x hx

/-- C4: conditioning on a predicate of nonzero probability renormalizes —
`prob` returns the exact matching mass, `such_that` succeeds, the
conditional probabilities sum to 1, and every outcome satisfying the
predicate gets its original probability divided by the predicate's
probability. -/
theorem claim_C4_such_that_conditional [DecidableEq α] (D : ProbDist α)
    (A : α → Bool) (hD : IsDistribution D) (hne : D.probVal A ≠ 0) :
    D.prob A = XVal.fin (D.probVal A) ∧
    ∃ C, D.such_that A = .ok C ∧ (C.space.map Prod.snd).sum = 1 ∧
      ∀ x, A x = true → C.getP x = D.getP x / D.probVal A := by
  obtain ⟨hsum, hbound⟩ := hD
  have hF_nonneg : ∀ p ∈ D.space.filter fun p => A p.1, 0 ≤ p.2 :=
    fun p hp => (hbound p (List.mem_of_mem_filter hp)).1
  have hT0 : 0 ≤ D.probVal A := sum_snd_nonneg _ hF_nonneg
  have hTpos : 0 < D.probVal A := lt_of_le_of_ne hT0 (Ne.symm hne)
  have hTle : D.probVal A ≤ 1 := by
    have := sum_snd_filter_le (fun p => A p.1) D.space fun p hp => (hbound p hp).1
    calc D.probVal A ≤ (D.space.map Prod.snd).sum := this
      _ = 1 := hsum
  constructor
  · unfold ProbDist.prob
    exact Prob.new_of_mem _ hT0 hTle
  · have hok : mkProbDist (D.space.filter fun p => A p.1) =
        .ok ⟨(D.space.filter fun p => A p.1).map
              fun p => (p.1, p.2 / D.probVal A)⟩ := by
      apply mkProbDist_ok_of _ hne
      intro p hp
      constructor
      · exact div_nonneg (hF_nonneg p hp) hT0
      · show p.2 / D.probVal A ≤ 1
        rw [div_le_one hTpos]
        exact mem_le_sum_snd _ p hF_nonneg hp
    refine ⟨_, hok, ?_, ?_⟩
    · show (((D.space.filter fun p => A p.1).map
          fun p => (p.1, p.2 / D.probVal A)).map Prod.snd).sum = 1
      rw [sum_map_div]
      exact div_self hne
    · intro x hx
      show lookupD ((D.space.filter fun p => A p.1).map
          fun p => (p.1, p.2 / D.probVal A)) x = D.getP x / D.probVal A
      rw [lookupD_map_div, lookupD_filter D.space A x hx]
      rfl

/-- Witness for C4: conditioning `{0: 2/3, 1: 1/3}` on the outcome 0. -/
theorem claim_C4_such_that_conditional_witness :
    twoThirdsOneThird.prob pickZero = XVal.fin (twoThirdsOneThird.probVal pickZero) ∧
    ∃ C, twoThirdsOneThird.such_that pickZero = .ok C ∧
      (C.space.map Prod.snd).sum = 1 ∧
      ∀ x, pickZero x = true →
        C.getP x = twoThirdsOneThird.getP x / twoThirdsOneThird.probVal pickZero :=
  claim_C4_such_that_conditional twoThirdsOneThird pickZero
    (by constructor
        · norm_num [twoThirdsOneThird]
        · intro p hp
          simp only [twoThirdsOneThird, List.mem_cons, List.not_mem_nil,
            or_false] at hp
          rcases hp with h | h <;> rw [h] <;> norm_num)
    (by norm_num [ProbDist.probVal, twoThirdsOneThird, pickZero])

/-- C7: for every proper distribution, `repeated(1)` equals the original
distribution (no joins are performed, only the re-normalizing copy
`ProbDist(self)`, which is the identity on an already-normalized space),
and `repeated(2)` equals a single `joint` with itself under the same key
policy. -/
theorem claim_C7_repeated_one_two (D : ProbDist PyVal) (kt : Bool)
    (sep : String) (hD : IsDistribution D) :
    D.repeated 1 kt sep = .ok D ∧ D.repeated 2 kt sep = D.joint D kt sep := by
  have hself := mkProbDist_self D hD
  constructor
  · show ProbDist.repeatedAux D kt sep (1 - 1) (mkProbDist D.space) = .ok D
    norm_num [ProbDist.repeatedAux, hself]
  · show ProbDist.repeatedAux D kt sep (2 - 1) (mkProbDist D.space) =
      D.joint D kt sep
    norm_num [ProbDist.repeatedAux, hself]

/-- Witness for C7: one and two repetitions of the fair coin. -/
theorem claim_C7_repeated_one_two_witness :
    coinHT.repeated 1 false "" = .ok coinHT ∧
    coinHT.repeated 2 false "" = coinHT.joint coinHT false "" :=
  claim_C7_repeated_one_two coinHT false "" (by
    constructor
    · norm_num [coinHT]
    · intro p hp
      simp only [coinHT, List.mem_cons, List.not_mem_nil, or_false] at hp
      rcases hp with h | h <;> rw [h] <;> norm_num)

/-- Adding a contribution under a fresh key appends it to the `Counter`. -/
theorem counterAdd_not_mem [DecidableEq β] :
    ∀ (acc : List (β × ℚ)) (k : β) (v : ℚ), k ∉ acc.map Prod.fst →
      counterAdd acc k v = acc ++ [(k, v)]
  | [], k, v, _ => rfl
  | p :: rest, k, v, h => by
      simp only [List.map_cons, List.mem_cons, not_or] at h
      simp only [counterAdd]
      rw [if_neg fun hc => h.1 hc.symm, counterAdd_not_mem rest k v h.2]
      rfl

/-- Folding contributions with pairwise-distinct keys into a `Counter`
reproduces the contribution list itself. -/
theorem foldl_counterAdd [DecidableEq β] :
    ∀ (l acc : List (β × ℚ)), ((acc ++ l).map Prod.fst).Nodup →
      l.foldl (fun acc p => counterAdd acc p.1 p.2) acc = acc ++ l
  | [], acc, _ => by simp
  | p :: rest, acc, h => by
      have hsplit := List.nodup_append.mp (by simpa [List.map_append] using h)
      have hk : p.1 ∉ acc.map Prod.fst := by
        intro hc
        exact hsplit.2.2 hc (by simp)
      simp only [List.foldl_cons]
      rw [counterAdd_not_mem acc p.1 p.2 hk]
      have heq : acc ++ [(p.1, p.2)] = acc ++ [p] := rfl
      rw [heq, foldl_counterAdd rest (acc ++ [p])
        (by simpa [List.append_assoc] using h)]
      simp

/-- `buildCounter` on a list with pairwise-distinct keys is the identity. -/
theorem buildCounter_nodup [DecidableEq β] (l : List (β × ℚ))
    (h : (l.map Prod.fst).Nodup) : buildCounter l = l := by
  have := foldl_counterAdd l [] (by simpa using h)
  simpa [buildCounter] using this

/-- With pairwise-distinct keys, looking up a member entry's key returns
its value. -/
theorem lookupD_of_mem [DecidableEq β] :
    ∀ l : List (β × ℚ), (l.map Prod.fst).Nodup → ∀ (k : β) (v : ℚ),
      (k, v) ∈ l → lookupD l k = v
  | [], _, k, v, hm => absurd hm (by simp)
  | p :: rest, hnd, k, v, hm => by
      simp only [List.map_cons, List.nodup_cons] at hnd
      rcases List.mem_cons.mp hm with he | hr
      · rw [← he]
        simp [lookupD]
      · have hk : p.1 ≠ k := by
          intro hc
          apply hnd.1
          rw [hc]
          exact List.mem_map.mpr ⟨(k, v), hr, rfl⟩
        simp only [lookupD]
        rw [if_neg hk]
        exact lookupD_of_mem rest hnd.2 k v hr

/-- Scaling every second component scales the sum. -/
theorem sum_map_snd_scaled (c : ℚ) (f : (PyVal × ℚ) → PyVal) :
    ∀ l : List (PyVal × ℚ),
      ((l.map fun p2 => (f p2, c * p2.2)).map Prod.snd).sum =
        c * (l.map Prod.snd).sum
  | [] => by simp
  | p :: rest => by
      simp only [List.map_cons, List.sum_cons, sum_map_snd_scaled c f rest]
      ring

/-- The total mass of all joint contributions is the product of the two
distributions' total masses. -/
theorem sum_flatMap_pairs (l2 : List (PyVal × ℚ)) (kt : Bool) (sep : String) :
    ∀ l1 : List (PyVal × ℚ),
      ((l1.flatMap fun p1 => l2.map fun p2 =>
          (keyCombine p1.1 p2.1 kt sep, p1.2 * p2.2)).map Prod.snd).sum =
        (l1.map Prod.snd).sum * (l2.map Prod.snd).sum
  | [] => by simp
  | p :: rest => by
      simp only [List.flatMap_cons, List.map_append, List.sum_append,
        List.map_cons, List.sum_cons, sum_flatMap_pairs l2 kt sep rest]
      rw [sum_map_snd_scaled p.2 (fun p2 => keyCombine p.1 p2.1 kt sep) l2]
      ring

/-- The source's `_key` agrees everywhere with the spec's stated key
precedence. -/
theorem keyCombine_eq_spec (e1 e2 : PyVal) (kt : Bool) (sep : String) :
    keyCombine e1 e2 kt sep = specKeyPolicy e1 e2 kt sep := by
  unfold keyCombine specKeyPolicy
  by_cases hsep : sep ≠ ""
  · rw [if_pos hsep, if_pos hsep]
  · rw [if_neg hsep, if_neg hsep]
    by_cases hkt : kt = false
    · rw [if_pos hkt, if_pos hkt]
      cases h : pyAdd e1 e2 <;> simp [Option.getD]
    · rw [if_neg hkt, if_neg hkt]
      cases e1 <;> cases e2 <;> simp [PyVal.isTup]

/-- C5: the key-combination policy follows the claim's exact precedence;
whenever the combined keys are pairwise distinct, the joint distribution
assigns each combined key the product of the component probabilities; and
joining two fair coins with default parameters gives
`{'HH': 1/4, 'HT': 1/4, 'TH': 1/4, 'TT': 1/4}`. -/
theorem claim_C5_joint_product :
    (∀ (e1 e2 : PyVal) (kt : Bool) (sep : String),
      keyCombine e1 e2 kt sep = specKeyPolicy e1 e2 kt sep) ∧
    (∀ (D1 D2 : ProbDist PyVal) (kt : Bool) (sep : String),
      IsDistribution D1 → IsDistribution D2 →
      ((jointPairs D1 D2 kt sep).map Prod.fst).Nodup →
      ∃ J, D1.joint D2 kt sep = .ok J ∧
        ∀ p1 ∈ D1.space, ∀ p2 ∈ D2.space,
          J.getP (keyCombine p1.1 p2.1 kt sep) = p1.2 * p2.2) ∧
    coinHT.joint coinHT false "" =
      .ok ⟨[(.str "HH", 1/4), (.str "HT", 1/4),
            (.str "TH", 1/4), (.str "TT", 1/4)]⟩ := by
  refine ⟨keyCombine_eq_spec, ?_, ?_⟩
  · intro D1 D2 kt sep hD1 hD2 hnd
    have hbc : buildCounter (jointPairs D1 D2 kt sep) = jointPairs D1 D2 kt sep :=
      buildCounter_nodup _ hnd
    have hsumL : ((jointPairs D1 D2 kt sep).map Prod.snd).sum = 1 := by
      simp only [jointPairs]
      rw [sum_flatMap_pairs D2.space kt sep D1.space, hD1.1, hD2.1]
      norm_num
    have hboundL : ∀ p ∈ jointPairs D1 D2 kt sep, 0 ≤ p.2 ∧ p.2 ≤ 1 := by
      intro p hp
      simp only [jointPairs, List.mem_flatMap, List.mem_map] at hp
      obtain ⟨p1, hp1, p2, hp2, heq⟩ := hp
      have h1 := hD1.2 p1 hp1
      have h2 := hD2.2 p2 hp2
      rw [← heq]
      constructor
      · exact mul_nonneg h1.1 h2.1
      · show p1.2 * p2.2 ≤ 1
        nlinarith [h1.1, h1.2, h2.1, h2.2]
    have hok : D1.joint D2 kt sep = .ok ⟨jointPairs D1 D2 kt sep⟩ := by
      unfold ProbDist.joint
      rw [hbc]
      exact mkProbDist_self ⟨jointPairs D1 D2 kt sep⟩ ⟨hsumL, hboundL⟩
    refine ⟨_, hok, ?_⟩
    intro p1 hp1 p2 hp2
    show lookupD (jointPairs D1 D2 kt sep) (keyCombine p1.1 p2.1 kt sep) =
      p1.2 * p2.2
    apply lookupD_of_mem _ hnd
    simp only [jointPairs, List.mem_flatMap, List.mem_map]
    exact ⟨p1, hp1, p2, hp2, rfl⟩
  · have h1 : jointPairs coinHT coinHT false "" =
        [(.str "HH", 1/4), (.str "HT", 1/4), (.str "TH", 1/4), (.str "TT", 1/4)] := by
      simp [jointPairs, coinHT, keyCombine, pyAdd]
      norm_num
    have h2 : buildCounter
        [((PyVal.str "HH" : PyVal), (1/4 : ℚ)), (.str "HT", 1/4),
          (.str "TH", 1/4), (.str "TT", 1/4)] =
        [(.str "HH", 1/4), (.str "HT", 1/4), (.str "TH", 1/4), (.str "TT", 1/4)] := by
      simp [buildCounter, counterAdd]
    have h3 : mkProbDist
        [((PyVal.str "HH" : PyVal), (1/4 : ℚ)), (.str "HT", 1/4),
          (.str "TH", 1/4), (.str "TT", 1/4)] =
        .ok ⟨[(.str "HH", 1/4), (.str "HT", 1/4),
              (.str "TH", 1/4), (.str "TT", 1/4)]⟩ := by
      norm_num [mkProbDist, normalizeSpace]
    show mkProbDist (buildCounter (jointPairs coinHT coinHT false "")) = _
    rw [h1, h2, h3]

/-- Witness for C5: the fair coin is a proper distribution, the joint keys
`HH, HT, TH, TT` are pairwise distinct, and the joint probability at each
combined key is the product of the component probabilities. -/
theorem claim_C5_joint_product_witness :
    IsDistribution coinHT ∧
    ((jointPairs coinHT coinHT false "").map Prod.fst).Nodup ∧
    ∃ J, coinHT.joint coinHT false "" = .ok J ∧
      ∀ p1 ∈ coinHT.space, ∀ p2 ∈ coinHT.space,
        J.getP (keyCombine p1.1 p2.1 false "") = p1.2 * p2.2 := by
  have hIs : IsDistribution coinHT := by
    constructor
    · norm_num [coinHT]
    · intro p hp
      simp only [coinHT, List.mem_cons, List.not_mem_nil, or_false] at hp
      rcases hp with h | h <;> rw [h] <;> norm_num
  have hnd : ((jointPairs coinHT coinHT false "").map Prod.fst).Nodup := by
    simp [jointPairs, coinHT, keyCombine, pyAdd]
  exact ⟨hIs, hnd, claim_C5_joint_product.2.1 coinHT coinHT false "" hIs hIs hnd⟩

end Pracpred
